import Mathlib

/-!
Verification of the clause-parsing, action-merge and reconciliation logic of
the `capabilities` module (src/lib/ansible/modules/system/capabilities.py).

Every definition below is a shallow embedding of the corresponding Python
code in `CapabilitiesModule`.  Python exceptions, `assert` failures and
`self.fail(...)` calls are all modelled as `Except.error` carrying the
message the source produces; `self.exit(...)` and `self.fail(...)` outcomes
of the reconciler are modelled by the `Outcome` type.  Python `None` is
modelled by `Option.none`.  A Python `set` of flag characters is modelled as
a duplicate-free `List Char`: only membership and the sorted rendering of
the set are observable, and both are preserved by this representation.
-/

namespace Capabilities

/-- Decidable equality for `Except`, used to evaluate the embedded code on
concrete inputs. -/
def exceptDecEq {ε : Type u} {α : Type v} [DecidableEq ε] [DecidableEq α] :
    (a b : Except ε α) → Decidable (a = b)
  | .error e₁, .error e₂ =>
    if h : e₁ = e₂ then .isTrue (by rw [h]) else .isFalse (fun hc => h (Except.error.inj hc))
  | .error _, .ok _ => .isFalse (fun hc => Except.noConfusion hc)
  | .ok _, .error _ => .isFalse (fun hc => Except.noConfusion hc)
  | .ok a₁, .ok a₂ =>
    if h : a₁ = a₂ then .isTrue (by rw [h]) else .isFalse (fun hc => h (Except.ok.inj hc))

instance {ε : Type u} {α : Type v} [DecidableEq ε] [DecidableEq α] :
    DecidableEq (Except ε α) := exceptDecEq

/-- A clause is a (capability, action-list) pair, as built by `_parse_clause`. -/
abbrev Clause := String × String

/-- The operator tuple `OPS = ('=', '-', '+')` from the source. -/
def OPS : List Char := ['=', '-', '+']

/-- Python `str.lower()` as used by `_parse_clauses` (ASCII-faithful). -/
def pyLower (s : String) : String := String.mk (s.data.map Char.toLower)

/-- Split a character list on every separator character satisfying `p`,
mirroring Python `str.split(sep)` for a one-character separator. -/
def splitBy (p : Char → Bool) : List Char → List (List Char)
  | [] => [[]]
  | c :: rest =>
    if p c then [] :: splitBy p rest
    else
      match splitBy p rest with
      | [] => [[c]]
      | part :: parts => (c :: part) :: parts

/-- The `for i, c in enumerate(clause): if c in OPS: break` scan of
`_parse_clause`: index of the first operator character, if any. -/
def findOp : List Char → Option Nat
  | [] => none
  | c :: rest => if c ∈ OPS then some 0 else (findOp rest).map (· + 1)

/-- The message of the `self.fail` call in `_parse_clause`:
`"Couldn't find operator (one of: %s)" % str(OPS)`. -/
def malformedMsg : String :=
  "Couldn\x27t find operator (one of: (\x27=\x27, \x27-\x27, \x27+\x27))"

/-- `CapabilitiesModule._parse_clause`: split a comma-free clause at the first
operator character into `(clause[:i], clause[i:])`; fail when no operator
occurs (the for-else branch). -/
def parse_clause (clause : String) : Except String (String × String) :=
  match findOp clause.data with
  | some i => .ok (String.mk (clause.data.take i), String.mk (clause.data.drop i))
  | none => .error malformedMsg

/-- Python `clause.split(',')` as used by `_parse_clauses`. -/
def commaSplit (clause : String) : List String :=
  (splitBy (fun c => c = ',') clause.data).map String.mk

/-- The loop body of `CapabilitiesModule._parse_clauses` for one raw (already
lower-cased) clause token: comma-separated capability names share the action
list parsed from the last sub-token; a comma-free token is parsed directly. -/
def parseOne (clause : String) : Except String (List Clause) :=
  if ',' ∈ clause.data then
    match parse_clause ((commaSplit clause).getLastD "") with
    | .error e => .error e
    | .ok (capName, actions) =>
        .ok (((commaSplit clause).dropLast ++ [capName]).map (fun cap => (cap, actions)))
  else
    match parse_clause clause with
    | .error e => .error e
    | .ok c => .ok [c]

/-- `CapabilitiesModule._parse_clauses`: lower-case each token, expand it via
the loop body, and concatenate the results in input order. -/
def parse_clauses : List String → Except String (List Clause)
  | [] => .ok []
  | clause :: rest =>
    match parseOne (pyLower clause), parse_clauses rest with
    | .error e, _ => .error e
    | .ok _, .error e => .error e
    | .ok items, .ok restItems => .ok (items ++ restItems)

/-- Python `set.add`: `flags.add(c)` on the duplicate-free list model. -/
def pyAdd (flags : List Char) (c : Char) : List Char :=
  if c ∈ flags then flags else flags ++ [c]

/-- Python `set.discard`: `flags.discard(c)` on the duplicate-free list model. -/
def pyDiscard (flags : List Char) (c : Char) : List Char := flags.erase c

/-- Insertion of a character into an ascending list, the building block used
to model Python `sorted`. -/
def insertAsc (c : Char) : List Char → List Char
  | [] => [c]
  | x :: xs => if c ≤ x then c :: x :: xs else x :: insertAsc c xs

/-- Python `sorted(flags)`: ascending insertion sort of the flag characters. -/
def sortChars (l : List Char) : List Char := l.foldr insertAsc []

/-- The per-action local state of the `_merge_actions` inner loop: the running
flag set (shared across actions), `mode`, `eq`, and the variable `l`, which
the source initializes to `None` and never reassigns. -/
structure MergeState where
  flags : List Char
  mode : Option Char
  eq : Bool
  l : Option Char
deriving DecidableEq

/-- One character step of the `_merge_actions` inner loop.  The `assert`
statements and the `raise Exception` of the source are modelled as errors
carrying the source messages. -/
def mergeStep (s : MergeState) (c : Char) : Except String MergeState :=
  if c = '=' then
    if s.eq then .error "Already had an \x60=\x60, can\x27t have 2!"
    else .ok { flags := [], mode := some '+', eq := true, l := s.l }
  else if c = '+' ∨ c = '-' then
    if s.l = some '+' ∨ s.l = some '-' then .error "Can\x27t do that!"
    else .ok { s with mode := some c }
  else if c = 'e' ∨ c = 'i' ∨ c = 'p' then
    match s.mode with
    | none => .error "No operator!"
    | some m =>
      if m = '+' then .ok { s with flags := pyAdd s.flags c }
      else if m = '-' then .ok { s with flags := pyDiscard s.flags c }
      else .ok s
  else .error ("Unknown char in action list!: \x60" ++ String.mk [c] ++ "\x60")

/-- The `for c in action` loop of `_merge_actions` over one action string. -/
def runAction (s : MergeState) : List Char → Except String MergeState
  | [] => .ok s
  | c :: cs =>
    match mergeStep s c with
    | .error e => .error e
    | .ok s2 => runAction s2 cs

/-- The `for action in actions` loop of `_merge_actions`: the flag set
persists across action strings, while `mode`, `eq` and `l` are re-initialized
for each action. -/
def runActions (flags : List Char) : List String → Except String (List Char)
  | [] => .ok flags
  | a :: rest =>
    match runAction { flags := flags, mode := none, eq := false, l := none } a.data with
    | .error e => .error e
    | .ok s => runActions s.flags rest

/-- `CapabilitiesModule._merge_actions`: run all action strings over an empty
flag set and render the result as an absolute assignment,
`'=' + ''.join(sorted(flags))`. -/
def merge_actions (actions : List String) : Except String String :=
  match runActions [] actions with
  | .error e => .error e
  | .ok flags => .ok ("=" ++ String.mk (sortChars flags))

/-- Python `list.index` as used by `merge_clauses` (`caps.index(...)`): index
of the first occurrence. -/
def pyIndex (a : String) : List String → Nat
  | [] => 0
  | x :: xs => if x = a then 0 else pyIndex a xs + 1

/-- The `for clause in self.clauses` loop of `merge_clauses`.  `caps` is the
capability-name list computed once from the current state and never updated:
a desired capability found in `caps` has its action merged with the existing
clause in place, any other desired clause is appended. -/
def mergeClausesLoop (caps : List String) : List Clause → List Clause → Except String (List Clause)
  | clauses, [] => .ok clauses
  | clauses, d :: rest =>
    if d.1 ∈ caps then
      match merge_actions [(clauses.getD (pyIndex d.1 caps) ("", "")).2, d.2] with
      | .error e => .error e
      | .ok a => mergeClausesLoop caps (clauses.set (pyIndex d.1 caps) (d.1, a)) rest
    else
      mergeClausesLoop caps (clauses ++ [d]) rest

/-- `CapabilitiesModule.merge_clauses` (the COMPOSING step when `exclusive`
is false), with the current-state clause list and the desired clause list as
explicit inputs.  The index into `clauses` computed from `caps` is always in
range in reachable states, so `getD` is an exact model of the source. -/
def merge_clauses (current desired : List Clause) : Except String (List Clause) :=
  mergeClausesLoop (current.map Prod.fst) current desired

/-- Python `str.strip()` with no argument: drop leading and trailing
whitespace. -/
def pyStrip (s : String) : String :=
  String.mk (((s.data.dropWhile Char.isWhitespace).reverse.dropWhile Char.isWhitespace).reverse)

/-- Python `stdout.split(' =')`: split on the two-character separator,
left to right, non-overlapping. -/
def splitSpaceEq : List Char → List (List Char)
  | [] => [[]]
  | ' ' :: '=' :: rest => [] :: splitSpaceEq rest
  | c :: rest =>
    match splitSpaceEq rest with
    | [] => [[c]]
    | part :: parts => (c :: part) :: parts

/-- Python `stdout.count(' =')` (non-overlapping occurrences). -/
def countSpaceEq (s : String) : Nat := (splitSpaceEq s.data).length - 1

/-- Python `str.split()` with no argument: split on whitespace runs,
discarding empty pieces. -/
def pySplitWs (s : String) : List String :=
  ((splitBy Char.isWhitespace s.data).filter (fun x => x ≠ [])).map String.mk

/-- `CapabilitiesModule.getcap` on a fresh read (the `self.__getcap is None`
path), as a function of the external query result `(rc, stdout, stderr)`.
The returned value is the new `self.__getcap`: note that in the branch where
the stripped stdout equals the bare path the source never assigns
`self.__getcap`, so the method returns Python `None`, modelled as `none`. -/
def getcap (path : String) (rc : Int) (stdout stderr : String) :
    Except String (Option (List Clause)) :=
  if rc ≠ 0 ∨ (pyStrip stdout ≠ path ∧ countSpaceEq stdout ≠ 1) then
    .error ("Unable to get capabilities of " ++ path)
  else if pyStrip stdout = path then
    .ok none
  else
    match parse_clauses (pySplitWs (pyStrip (String.mk ((splitSpaceEq stdout.data).getD 1 [])))) with
    | .error e => .error e
    | .ok cs => .ok (some cs)

/-- The non-exclusive `run` path: `clauses = self.getcap()` followed by the
`merge_clauses` iteration.  When `getcap` returned Python `None`, the list
comprehension `[clause[0] for clause in clauses]` raises `TypeError`,
modelled as an error. -/
def run_merge (current? : Option (List Clause)) (desired : List Clause) :
    Except String (List Clause) :=
  match current? with
  | none => .error "TypeError: \x27NoneType\x27 object is not iterable"
  | some cur => merge_clauses cur desired

/-- The result of a `module.exit_json` / `module.fail_json` call. -/
inductive Outcome where
  | exited (changed : Bool)
  | failed (msg : String)
deriving DecidableEq

/-- `CapabilitiesModule.__setcap` (the apply-mode invocation), as a function
of the cached pre-mutation snapshot `precaps`, the exit status of the real
`setcap` invocation, and the result of the cache-bypassing re-read
(`self.getcap(cached=False)`).  The source compares the snapshots with
Python `!=`, i.e. ordered structural list inequality. -/
def setcapApply (path : String) (precaps : Option (List Clause)) (rc : Int)
    (postRead : Except String (Option (List Clause))) : Outcome :=
  if rc ≠ 0 then .failed ("Unable to set capabilities of " ++ path)
  else
    match postRead with
    | .error e => .failed e
    | .ok post => if precaps ≠ post then .exited true else .exited false

/-- Outcome of one `setcap` orchestration together with whether the
apply-mode setter (`__setcap`) was invoked at all. -/
structure SetcapRun where
  outcome : Outcome
  appliedMutation : Bool
deriving DecidableEq

/-- `CapabilitiesModule.setcap`: run the verify-mode setter; a nonzero exit
status in check mode reports a change without mutating, a nonzero status
otherwise runs the apply-mode setter, and a zero status reports no change. -/
def setcap (path : String) (checkMode : Bool) (verifyRc : Int)
    (precaps : Option (List Clause)) (applyRc : Int)
    (postRead : Except String (Option (List Clause))) : SetcapRun :=
  if verifyRc ≠ 0 ∧ checkMode then ⟨.exited true, false⟩
  else if verifyRc ≠ 0 then ⟨setcapApply path precaps applyRc postRead, true⟩
  else ⟨.exited false, false⟩

/-! Helper lemmas about the embedded definitions. -/

/-- A successful `merge_actions` run decomposes into a successful flag-set
run followed by the absolute-assignment rendering. -/
theorem merge_actions_ok_iff (actions : List String) (r : String) :
    merge_actions actions = .ok r ↔
      ∃ f, runActions [] actions = .ok f ∧ r = "=" ++ String.mk (sortChars f) := by
  unfold merge_actions
  constructor
  · intro h
    cases hr : runActions [] actions with
    | error e => rw [hr] at h; exact absurd h (fun hc => Except.noConfusion hc)
    | ok f => rw [hr] at h; exact ⟨f, rfl, (Except.ok.inj h).symm⟩
  · rintro ⟨f, hf, hr⟩
    rw [hf, hr]

/-- Processing an action string that begins with the reset operator is
independent of the incoming flag set: the first step clears it. -/
theorem runAction_reset (f g : List Char) (t : List Char) :
    runAction { flags := f, mode := none, eq := false, l := none } ('=' :: t) =
      runAction { flags := g, mode := none, eq := false, l := none } ('=' :: t) := by
  simp [runAction, mergeStep]

/-- Claim C4 (code evaluation): an action string with two adjacent operator
characters is accepted by `_merge_actions` instead of failing: the guard
variable `l` is initialized to `None` and never reassigned, so the
adjacent-operator assert can never fire.  `merge_actions` on the single
action `++e` returns the merged result `=e`, and on `+-e` returns `=`. -/
theorem C4_code_eval :
    merge_actions ["++e"] = .ok "=e" ∧ merge_actions ["+-e"] = .ok "=" :=
  ⟨rfl, rfl⟩

/-- The variable `l` of the `_merge_actions` loop is never reassigned: every
state reachable by `runAction` from a state with `l = none` has `l = none`,
so the adjacent-operator assert `l not in (+, -)` is dead code. -/
theorem runAction_l_none (cs : List Char) :
    ∀ (s s2 : MergeState), runAction s cs = .ok s2 → s.l = none → s2.l = none := by
  induction cs with
  | nil =>
    intro s s2 h hl
    rw [← Except.ok.inj h]
    exact hl
  | cons c rest ih =>
    intro s s2 h hl
    cases hstep : mergeStep s c with
    | error e => rw [runAction, hstep] at h; exact absurd h (fun hc => Except.noConfusion hc)
    | ok s1 =>
      rw [runAction, hstep] at h
      refine ih s1 s2 h ?_
      unfold mergeStep at hstep
      split at hstep
      · split at hstep
        · exact absurd hstep (fun hc => Except.noConfusion hc)
        · rw [← Except.ok.inj hstep]; exact hl
      · split at hstep
        · split at hstep
          · exact absurd hstep (fun hc => Except.noConfusion hc)
          · rw [← Except.ok.inj hstep]; exact hl
        · split at hstep
          · split at hstep
            · exact absurd hstep (fun hc => Except.noConfusion hc)
            · split at hstep
              · rw [← Except.ok.inj hstep]; exact hl
              · split at hstep
                · rw [← Except.ok.inj hstep]; exact hl
                · rw [← Except.ok.inj hstep]; exact hl
          · exact absurd hstep (fun hc => Except.noConfusion hc)

/-- Claim C5: `_merge_actions` tracks add/remove mode per character inside one
action string; merging the single action `+ei-e` yields exactly the flag set
containing `i`, rendered as `=i`. -/
theorem C5_mode_per_char : merge_actions ["+ei-e"] = .ok "=i" := rfl

/-- Claim C6: when the second action string begins with the reset operator,
the first well-formed action string contributes nothing: merging `[a, b]`
equals merging `[b]` alone. -/
theorem C6_reset (a b : String)
    (ha : ∃ r, merge_actions [a] = Except.ok r)
    (hb : ∃ r, merge_actions [b] = Except.ok r)
    (hhead : ∃ t, b.data = '=' :: t) :
    merge_actions [a, b] = merge_actions [b] := by
  obtain ⟨ra, hra⟩ := ha
  obtain ⟨f, hf, _⟩ := (merge_actions_ok_iff [a] ra).mp hra
  obtain ⟨t, ht⟩ := hhead
  have hone : ∀ g : List Char, runActions g [b] = runActions [] [b] := by
    intro g
    simp only [runActions, ht]
    rw [runAction_reset g []]
  have hAB : runActions [] [a, b] = runActions [] [b] := by
    cases hA : runAction { flags := [], mode := none, eq := false, l := none } a.data with
    | error e =>
      exfalso
      have h2 : runActions [] [a] = Except.error e := by
        simp only [runActions, hA]
      rw [h2] at hf
      exact Except.noConfusion hf
    | ok s =>
      have h2 : runActions [] [a, b] = runActions s.flags [b] := by
        simp only [runActions, hA]
      rw [h2, hone s.flags]
  unfold merge_actions
  rw [hAB]

/-- Witness for C6 at `a = "+e"`, `b = "=p"`. -/
theorem C6_witness : merge_actions ["+e", "=p"] = merge_actions ["=p"] :=
  C6_reset "+e" "=p" ⟨"=e", rfl⟩ ⟨"=p", rfl⟩ ⟨['p'], rfl⟩

/-- Claim C3 (code evaluation at the failing input): when the query primitive
exits 0 and its stripped stdout equals the bare path, `getcap` returns Python
`None` — not the empty clause list — and the subsequent non-exclusive merge
then crashes with a `TypeError` instead of being well-defined. -/
theorem C3_code_eval :
    getcap "/foo" 0 "/foo" "" = .ok none ∧
    getcap "/foo" 0 "/foo" "" ≠ .ok (some ([] : List Clause)) ∧
    run_merge none [("cap_sys_chroot", "+ep")] =
      .error "TypeError: \x27NoneType\x27 object is not iterable" :=
  ⟨rfl, by decide, rfl⟩

/-- Claim C2 (counterexample): after a successful apply-mode invocation the
source compares the snapshots with ordered list inequality, so a post-read
that is a permutation of the pre-mutation snapshot is reported as
`changed=true`, although under the order-independent equality stated in the
claim no change occurred. -/
theorem C2_counterexample :
    setcapApply "/foo" (some [("cap_a", "=e"), ("cap_b", "=p")]) 0
        (.ok (some [("cap_b", "=p"), ("cap_a", "=e")])) = Outcome.exited true ∧
    List.Perm [(("cap_a", "=e") : Clause), ("cap_b", "=p")] [("cap_b", "=p"), ("cap_a", "=e")] :=
  ⟨rfl, by decide⟩

/-- Claim C2 as amended: after a successful apply-mode setter invocation
(exit status 0) with a successful cache-bypassed re-read, the outcome is
`changed=true` exactly when the post-read clause list differs from the
pre-mutation snapshot as an ordered list (Python `!=`); when the two lists
are equal the outcome is `changed=false` and not a failure. -/
theorem C2_amended_changed (path : String) (precaps post : Option (List Clause)) :
    setcapApply path precaps 0 (.ok post) =
      if precaps = post then Outcome.exited false else Outcome.exited true := by
  show (if precaps ≠ post then Outcome.exited true else Outcome.exited false) = _
  by_cases h : precaps = post
  · rw [if_neg (not_not_intro h), if_pos h]
  · rw [if_pos h, if_neg h]

/-- Claim C9: in check mode, a nonzero verify-mode exit status reports
`changed=true` and terminates without invoking the apply-mode setter. -/
theorem C9_check_no_mutation (path : String) (verifyRc : Int)
    (precaps : Option (List Clause)) (applyRc : Int)
    (postRead : Except String (Option (List Clause)))
    (h : verifyRc ≠ 0) :
    setcap path true verifyRc precaps applyRc postRead =
      ⟨Outcome.exited true, false⟩ := by
  unfold setcap
  rw [if_pos ⟨h, rfl⟩]

/-- Witness for C9 at a concrete nonzero verify status. -/
theorem C9_witness :
    setcap "/foo" true 1 (some []) 0 (.ok (some [])) = ⟨Outcome.exited true, false⟩ :=
  C9_check_no_mutation "/foo" 1 (some []) 0 (.ok (some [])) (by decide)

/-- When no character of the clause is an operator, the scan finds nothing. -/
theorem findOp_eq_none : ∀ (l : List Char), (∀ c ∈ l, c ∉ OPS) → findOp l = none := by
  intro l
  induction l with
  | nil => intro _; rfl
  | cons c rest ih =>
    intro h
    unfold findOp
    rw [if_neg (h c (List.mem_cons_self c rest)),
      ih (fun x hx => h x (List.mem_cons_of_mem c hx))]
    rfl

/-- When some character of the clause is an operator, the scan finds one. -/
theorem findOp_isSome : ∀ (l : List Char), (∃ c ∈ l, c ∈ OPS) → ∃ i, findOp l = some i := by
  intro l
  induction l with
  | nil => rintro ⟨c, hc, _⟩; exact absurd hc (List.not_mem_nil c)
  | cons x rest ih =>
    rintro ⟨c, hc, hops⟩
    by_cases hx : x ∈ OPS
    · exact ⟨0, by unfold findOp; rw [if_pos hx]⟩
    · rcases List.mem_cons.mp hc with rfl | hc2
      · exact absurd hops hx
      · obtain ⟨i, hi⟩ := ih ⟨c, hc2, hops⟩
        exact ⟨i + 1, by unfold findOp; rw [if_neg hx, hi]; rfl⟩

/-- Claim C7: parsing a well-formed clause token (already lower-case,
comma-free, containing an operator character) and re-rendering the resulting
clause as `capability ++ action` reproduces the original token exactly. -/
theorem C7_roundtrip (t : String) (hlower : pyLower t = t) (hcomma : ',' ∉ t.data)
    (hop : ∃ c ∈ t.data, c ∈ OPS) :
    ∃ cap act : String, parse_clauses [t] = .ok [(cap, act)] ∧ cap ++ act = t := by
  obtain ⟨i, hi⟩ := findOp_isSome t.data hop
  refine ⟨String.mk (t.data.take i), String.mk (t.data.drop i), ?_, ?_⟩
  · have h1 : parseOne t = .ok [(String.mk (t.data.take i), String.mk (t.data.drop i))] := by
      unfold parseOne
      rw [if_neg hcomma]
      unfold parse_clause
      rw [hi]
    simp only [parse_clauses, hlower, h1, List.append_nil]
  · cases t with
    | mk d =>
      show String.mk ((d.take i) ++ (d.drop i)) = String.mk d
      rw [List.take_append_drop]

/-- Witness for C7 at the token `cap_foo+ep`. -/
theorem C7_witness :
    ∃ cap act : String,
      parse_clauses ["cap_foo+ep"] = .ok [(cap, act)] ∧ cap ++ act = "cap_foo+ep" :=
  C7_roundtrip "cap_foo+ep" rfl (by decide) ⟨'+', by decide, by decide⟩

/-- Claim C8: a comma-free token containing no operator character makes
`_parse_clause` fail with the malformed-clause message, which names each of
the valid operators `=`, `-`, `+`; the token is not skipped or defaulted. -/
theorem C8_no_op_fails (t : String) (hcomma : ',' ∉ t.data)
    (hop : ∀ c ∈ t.data, c ∉ OPS) :
    parse_clause t = .error malformedMsg ∧
      '=' ∈ malformedMsg.data ∧ '-' ∈ malformedMsg.data ∧ '+' ∈ malformedMsg.data := by
  refine ⟨?_, by decide, by decide, by decide⟩
  unfold parse_clause
  rw [findOp_eq_none t.data hop]

/-- Witness for C8 at the token `cap_foo`. -/
theorem C8_witness :
    parse_clause "cap_foo" = .error malformedMsg ∧
      '=' ∈ malformedMsg.data ∧ '-' ∈ malformedMsg.data ∧ '+' ∈ malformedMsg.data :=
  C8_no_op_fails "cap_foo" (by decide) (by decide)

/-- Python `list.index` finds an index inside the list. -/
theorem pyIndex_lt {a : String} : ∀ {l : List String}, a ∈ l → pyIndex a l < l.length := by
  intro l
  induction l with
  | nil => intro h; exact absurd h (List.not_mem_nil a)
  | cons x xs ih =>
    intro h
    unfold pyIndex
    by_cases hx : x = a
    · rw [if_pos hx]; exact Nat.succ_pos _
    · rw [if_neg hx]
      have h2 : a ∈ xs := by
        rcases List.mem_cons.mp h with rfl | h2
        · exact absurd rfl hx
        · exact h2
      exact Nat.succ_lt_succ (ih h2)

/-- Python `list.index` retrieves the element looked up. -/
theorem pyIndex_getElem {a : String} : ∀ {l : List String}, a ∈ l → l[pyIndex a l]? = some a := by
  intro l
  induction l with
  | nil => intro h; exact absurd h (List.not_mem_nil a)
  | cons x xs ih =>
    intro h
    unfold pyIndex
    by_cases hx : x = a
    · rw [if_pos hx]
      simp [hx]
    · rw [if_neg hx]
      have h2 : a ∈ xs := by
        rcases List.mem_cons.mp h with rfl | h2
        · exact absurd rfl hx
        · exact h2
      simp only [List.getElem?_cons_succ]
      exact ih h2

/-- Lookup in an append stays in the left part below its length. -/
theorem getElemQ_append_left :
    ∀ (l1 l2 : List String) (i : Nat), i < l1.length → (l1 ++ l2)[i]? = l1[i]? := by
  intro l1
  induction l1 with
  | nil => intro l2 i h; exact absurd h (Nat.not_lt_zero i)
  | cons x xs ih =>
    intro l2 i h
    cases i with
    | zero => simp
    | succ n =>
      simp only [List.cons_append, List.getElem?_cons_succ]
      exact ih l2 n (Nat.lt_of_succ_lt_succ h)

/-- Setting an element commutes with projecting capability names. -/
theorem map_fst_set : ∀ (l : List Clause) (n : Nat) (p : Clause),
    (l.set n p).map Prod.fst = (l.map Prod.fst).set n p.1 := by
  intro l
  induction l with
  | nil => intro n p; rfl
  | cons x xs ih =>
    intro n p
    cases n with
    | zero => rfl
    | succ m =>
      show x.1 :: (xs.set m p).map Prod.fst = x.1 :: (xs.map Prod.fst).set m p.1
      rw [ih]

/-- Setting an index to the value already stored there changes nothing. -/
theorem set_getElemQ_same :
    ∀ (l : List String) (i : Nat) (a : String), l[i]? = some a → l.set i a = l := by
  intro l
  induction l with
  | nil => intro i a h; exact absurd h (by simp)
  | cons x xs ih =>
    intro i a h
    cases i with
    | zero =>
      simp only [List.getElem?_cons_zero, Option.some.injEq] at h
      rw [← h]
      rfl
    | succ n =>
      simp only [List.getElem?_cons_succ] at h
      show x :: xs.set n a = x :: xs
      rw [ih n a h]

/-- Capability names through the `merge_clauses` loop: merging in place never
changes the name list, and every desired clause whose capability is not in
`caps` — the name list computed once at entry — is appended, duplicates
included. -/
theorem mergeClausesLoop_names (caps : List String) :
    ∀ (desired clauses : List Clause) (e : List String) (out : List Clause),
      clauses.map Prod.fst = caps ++ e →
      mergeClausesLoop caps clauses desired = .ok out →
      out.map Prod.fst =
        caps ++ e ++ (desired.filter (fun d => decide (d.1 ∉ caps))).map Prod.fst := by
  intro desired
  induction desired with
  | nil =>
    intro clauses e out hmap h
    have h2 : clauses = out := Except.ok.inj h
    rw [← h2, hmap, List.filter_nil]
    simp
  | cons d rest ih =>
    intro clauses e out hmap h
    unfold mergeClausesLoop at h
    by_cases hd : d.1 ∈ caps
    · rw [if_pos hd] at h
      cases hma : merge_actions [(clauses.getD (pyIndex d.1 caps) ("", "")).2, d.2] with
      | error e2 => rw [hma] at h; exact absurd h (fun hc => Except.noConfusion hc)
      | ok a =>
        rw [hma] at h
        have hi : pyIndex d.1 caps < caps.length := pyIndex_lt hd
        have hsome : (caps ++ e)[pyIndex d.1 caps]? = some d.1 := by
          rw [getElemQ_append_left caps e _ hi]
          exact pyIndex_getElem hd
        have hnames : (clauses.set (pyIndex d.1 caps) (d.1, a)).map Prod.fst = caps ++ e := by
          rw [map_fst_set, hmap]
          exact set_getElemQ_same (caps ++ e) (pyIndex d.1 caps) d.1 hsome
        rw [ih (clauses.set (pyIndex d.1 caps) (d.1, a)) e out hnames h]
        congr 1
        have hfilter : (d :: rest).filter (fun d2 => decide (d2.1 ∉ caps)) =
            rest.filter (fun d2 => decide (d2.1 ∉ caps)) := by
          simp [hd]
        rw [hfilter]
    · rw [if_neg hd] at h
      have hnames : (clauses ++ [d]).map Prod.fst = caps ++ (e ++ [d.1]) := by
        rw [List.map_append, hmap, List.append_assoc]
        rfl
      have hfilter : (d :: rest).filter (fun d2 => decide (d2.1 ∉ caps)) =
          d :: rest.filter (fun d2 => decide (d2.1 ∉ caps)) := by
        simp [hd]
      rw [ih (clauses ++ [d]) (e ++ [d.1]) out hnames h, hfilter]
      simp [List.append_assoc]

/-- Claim C1 (counterexample): a desired list that repeats a capability absent
from the current state makes the COMPOSING step return a clause list with the
capability name `cap_foo` twice — `caps` is computed once from the current
state and is not updated when a clause is appended. -/
theorem C1_counterexample :
    merge_clauses [] [("cap_foo", "+e"), ("cap_foo", "+p")] =
      .ok [("cap_foo", "+e"), ("cap_foo", "+p")] ∧
    ¬ (([("cap_foo", "+e"), ("cap_foo", "+p")] : List Clause).map Prod.fst).Nodup :=
  ⟨rfl, by decide⟩

/-- Claim C1 as amended: the candidate clause list produced by the COMPOSING
step contains each capability name at most once provided the current-state
names are pairwise distinct and the desired clauses whose capability is not
already present in the current state have pairwise-distinct names. -/
theorem C1_amended_unique (current desired out : List Clause)
    (hcur : (current.map Prod.fst).Nodup)
    (hdes : ((desired.filter
        (fun d => decide (d.1 ∉ current.map Prod.fst))).map Prod.fst).Nodup)
    (hrun : merge_clauses current desired = .ok out) :
    (out.map Prod.fst).Nodup := by
  unfold merge_clauses at hrun
  have hnames := mergeClausesLoop_names (current.map Prod.fst) desired current [] out
    (by simp) hrun
  rw [List.append_nil] at hnames
  rw [hnames]
  refine List.Nodup.append hcur hdes ?_
  intro x hx hx2
  obtain ⟨d, hdmem, hdx⟩ := List.mem_map.mp hx2
  have hnot := of_decide_eq_true (List.mem_filter.mp hdmem).2
  exact hnot (hdx ▸ hx)

/-- Witness for C1 at a concrete current state and desired list. -/
theorem C1_witness :
    (([("cap_a", "=ep"), ("cap_b", "+e")] : List Clause).map Prod.fst).Nodup :=
  C1_amended_unique [("cap_a", "=e")] [("cap_a", "+p"), ("cap_b", "+e")]
    [("cap_a", "=ep"), ("cap_b", "+e")] (by decide) (by decide) rfl

/-- Membership in an ascending insertion. -/
theorem mem_insertAsc {x c : Char} :
    ∀ {l : List Char}, x ∈ insertAsc c l ↔ x = c ∨ x ∈ l := by
  intro l
  induction l with
  | nil => simp [insertAsc]
  | cons y ys ih =>
    unfold insertAsc
    by_cases hcy : c ≤ y
    · rw [if_pos hcy]; simp
    · rw [if_neg hcy]
      simp only [List.mem_cons, ih]
      tauto

/-- Ascending insertion preserves sortedness. -/
theorem pairwise_insertAsc {c : Char} :
    ∀ {l : List Char}, l.Pairwise (fun a b => a ≤ b) →
      (insertAsc c l).Pairwise (fun a b => a ≤ b) := by
  intro l
  induction l with
  | nil => intro _; simp [insertAsc]
  | cons y ys ih =>
    intro h
    rw [List.pairwise_cons] at h
    unfold insertAsc
    by_cases hcy : c ≤ y
    · rw [if_pos hcy, List.pairwise_cons]
      constructor
      · intro z hz
        rcases List.mem_cons.mp hz with rfl | hz2
        · exact hcy
        · exact le_trans hcy (h.1 z hz2)
      · rw [List.pairwise_cons]; exact h
    · rw [if_neg hcy, List.pairwise_cons]
      constructor
      · intro z hz
        rcases mem_insertAsc.mp hz with rfl | hz2
        · exact le_of_not_le hcy
        · exact h.1 z hz2
      · exact ih h.2

/-- The rendering order of the flag set is ascending. -/
theorem sortChars_pairwise (l : List Char) :
    (sortChars l).Pairwise (fun a b => a ≤ b) := by
  induction l with
  | nil => simp [sortChars]
  | cons c cs ih => exact pairwise_insertAsc ih

/-- Sorting an already ascending list changes nothing. -/
theorem sortChars_of_pairwise :
    ∀ {l : List Char}, l.Pairwise (fun a b => a ≤ b) → sortChars l = l := by
  intro l
  induction l with
  | nil => intro _; rfl
  | cons c cs ih =>
    intro h
    rw [List.pairwise_cons] at h
    show insertAsc c (sortChars cs) = c :: cs
    rw [ih h.2]
    cases cs with
    | nil => rfl
    | cons y ys =>
      unfold insertAsc
      rw [if_pos (h.1 y (List.mem_cons_self y ys))]

/-- Sorting preserves membership. -/
theorem mem_sortChars {x : Char} : ∀ {l : List Char}, x ∈ sortChars l ↔ x ∈ l := by
  intro l
  induction l with
  | nil => simp [sortChars]
  | cons c cs ih =>
    show x ∈ insertAsc c (sortChars cs) ↔ _
    rw [mem_insertAsc, ih]
    simp

/-- Ascending insertion of a fresh element preserves distinctness. -/
theorem nodup_insertAsc {c : Char} :
    ∀ {l : List Char}, l.Nodup → c ∉ l → (insertAsc c l).Nodup := by
  intro l
  induction l with
  | nil => intro _ _; simp [insertAsc]
  | cons y ys ih =>
    intro h hc
    unfold insertAsc
    by_cases hcy : c ≤ y
    · rw [if_pos hcy]
      exact List.nodup_cons.mpr ⟨hc, h⟩
    · rw [if_neg hcy]
      rw [List.nodup_cons] at h ⊢
      refine ⟨?_, ih h.2 (fun hmem => hc (List.mem_cons_of_mem y hmem))⟩
      intro hmem
      rcases mem_insertAsc.mp hmem with h2 | h2
      · exact hc (by rw [← h2]; exact List.mem_cons_self y ys)
      · exact h.1 h2

/-- Sorting preserves distinctness. -/
theorem nodup_sortChars : ∀ {l : List Char}, l.Nodup → (sortChars l).Nodup := by
  intro l
  induction l with
  | nil => intro _; exact List.nodup_nil
  | cons c cs ih =>
    intro h
    rw [List.nodup_cons] at h
    show (insertAsc c (sortChars cs)).Nodup
    exact nodup_insertAsc (ih h.2) (fun hmem => h.1 (mem_sortChars.mp hmem))

/-- The invariant of the running flag set of `_merge_actions`: it is
duplicate-free and holds only flag characters. -/
def FlagsInv (f : List Char) : Prop :=
  f.Nodup ∧ ∀ x ∈ f, x = 'e' ∨ x = 'i' ∨ x = 'p'

/-- `set.add` of a flag character preserves the flag-set invariant. -/
theorem pyAdd_inv {f : List Char} {c : Char} (hinv : FlagsInv f)
    (hc : c = 'e' ∨ c = 'i' ∨ c = 'p') : FlagsInv (pyAdd f c) := by
  unfold pyAdd
  by_cases hmem : c ∈ f
  · rw [if_pos hmem]; exact hinv
  · rw [if_neg hmem]
    constructor
    · refine List.Nodup.append hinv.1 (List.nodup_singleton c) ?_
      intro x hx hx2
      rw [List.mem_singleton.mp hx2] at hx
      exact hmem hx
    · intro x hx
      rcases List.mem_append.mp hx with h1 | h1
      · exact hinv.2 x h1
      · rw [List.mem_singleton.mp h1]; exact hc

/-- `set.discard` preserves the flag-set invariant. -/
theorem pyDiscard_inv {f : List Char} {c : Char} (hinv : FlagsInv f) :
    FlagsInv (pyDiscard f c) :=
  ⟨hinv.1.erase c, fun x hx => hinv.2 x (List.mem_of_mem_erase hx)⟩

/-- One `_merge_actions` step preserves the flag-set invariant. -/
theorem mergeStep_inv (s s2 : MergeState) (c : Char) (h : mergeStep s c = .ok s2)
    (hinv : FlagsInv s.flags) : FlagsInv s2.flags := by
  unfold mergeStep at h
  split at h
  · split at h
    · exact absurd h (fun hc => Except.noConfusion hc)
    · rw [← Except.ok.inj h]
      exact ⟨List.nodup_nil, by simp⟩
  · split at h
    · split at h
      · exact absurd h (fun hc => Except.noConfusion hc)
      · rw [← Except.ok.inj h]; exact hinv
    · split at h
      · rename_i hflag
        split at h
        · exact absurd h (fun hc => Except.noConfusion hc)
        · split at h
          · rw [← Except.ok.inj h]
            exact pyAdd_inv hinv hflag
          · split at h
            · rw [← Except.ok.inj h]
              exact pyDiscard_inv hinv
            · rw [← Except.ok.inj h]; exact hinv
      · exact absurd h (fun hc => Except.noConfusion hc)

/-- Running one action string preserves the flag-set invariant. -/
theorem runAction_inv : ∀ (cs : List Char) (s s2 : MergeState),
    runAction s cs = .ok s2 → FlagsInv s.flags → FlagsInv s2.flags := by
  intro cs
  induction cs with
  | nil => intro s s2 h hinv; rw [← Except.ok.inj h]; exact hinv
  | cons c rest ih =>
    intro s s2 h hinv
    cases hstep : mergeStep s c with
    | error e => rw [runAction, hstep] at h; exact absurd h (fun hc => Except.noConfusion hc)
    | ok s1 =>
      rw [runAction, hstep] at h
      exact ih s1 s2 h (mergeStep_inv s s1 c hstep hinv)

/-- Running all action strings preserves the flag-set invariant. -/
theorem runActions_inv : ∀ (as : List String) (f f2 : List Char),
    runActions f as = .ok f2 → FlagsInv f → FlagsInv f2 := by
  intro as
  induction as with
  | nil => intro f f2 h hinv; rw [← Except.ok.inj h]; exact hinv
  | cons a rest ih =>
    intro f f2 h hinv
    cases hA : runAction { flags := f, mode := none, eq := false, l := none } a.data with
    | error e => rw [runActions, hA] at h; exact absurd h (fun hc => Except.noConfusion hc)
    | ok s =>
      rw [runActions, hA] at h
      exact ih s.flags f2 h (runAction_inv a.data _ s hA hinv)

/-- A flag character in add mode just adds to the flag set. -/
theorem mergeStep_flagChar (s : MergeState) (c : Char)
    (hc : c = 'e' ∨ c = 'i' ∨ c = 'p') (hm : s.mode = some '+') :
    mergeStep s c = .ok { s with flags := pyAdd s.flags c } := by
  have h1 : ¬ c = '=' := by rcases hc with rfl | rfl | rfl <;> decide
  have h2 : ¬ (c = '+' ∨ c = '-') := by rcases hc with rfl | rfl | rfl <;> decide
  unfold mergeStep
  rw [if_neg h1, if_neg h2, if_pos hc, hm]
  rfl

/-- Running a list of flag characters in add mode folds `set.add` over the
flag set and changes nothing else. -/
theorem runAction_addRun : ∀ (cs : List Char) (s : MergeState),
    (∀ c ∈ cs, c = 'e' ∨ c = 'i' ∨ c = 'p') → s.mode = some '+' →
    runAction s cs = .ok { s with flags := cs.foldl pyAdd s.flags } := by
  intro cs
  induction cs with
  | nil => intro s _ _; rfl
  | cons c rest ih =>
    intro s hall hm
    have hstep := mergeStep_flagChar s c (hall c (List.mem_cons_self c rest)) hm
    rw [runAction, hstep]
    exact ih { s with flags := pyAdd s.flags c }
      (fun x hx => hall x (List.mem_cons_of_mem c hx)) hm

/-- Folding `set.add` over characters that are all fresh reproduces them. -/
theorem foldl_pyAdd_of_nodup :
    ∀ (cs acc : List Char), (acc ++ cs).Nodup → List.foldl pyAdd acc cs = acc ++ cs := by
  intro cs
  induction cs with
  | nil => intro acc _; simp
  | cons c rest ih =>
    intro acc h
    have hc : c ∉ acc := by
      intro hmem
      exact (List.disjoint_of_nodup_append h) hmem (List.mem_cons_self c rest)
    have hstep : pyAdd acc c = acc ++ [c] := by unfold pyAdd; rw [if_neg hc]
    calc List.foldl pyAdd acc (c :: rest) = List.foldl pyAdd (pyAdd acc c) rest := by
          simp [List.foldl]
      _ = List.foldl pyAdd (acc ++ [c]) rest := by rw [hstep]
      _ = (acc ++ [c]) ++ rest := ih (acc ++ [c]) (by simpa using h)
      _ = acc ++ c :: rest := by simp

/-- Claim C10: the normalized result of a successful merge is itself a
well-formed action string, and merging it alone reproduces it exactly:
`merge([merge(actions)]) = merge(actions)`. -/
theorem C10_idempotent (actions : List String) (r : String)
    (h : merge_actions actions = .ok r) :
    merge_actions [r] = .ok r := by
  obtain ⟨f, hrun, hr⟩ := (merge_actions_ok_iff actions r).mp h
  have hinv : FlagsInv f := runActions_inv actions [] f hrun ⟨List.nodup_nil, by simp⟩
  have hdata : r.data = '=' :: sortChars f := by rw [hr]; rfl
  have hAll : ∀ c ∈ sortChars f, c = 'e' ∨ c = 'i' ∨ c = 'p' :=
    fun c hc => hinv.2 c (mem_sortChars.mp hc)
  have hnodup : (sortChars f).Nodup := nodup_sortChars hinv.1
  have hstep1 : mergeStep { flags := [], mode := none, eq := false, l := none } '=' =
      .ok { flags := [], mode := some '+', eq := true, l := none } := rfl
  have hrunr : runAction { flags := [], mode := none, eq := false, l := none } r.data =
      .ok { flags := sortChars f, mode := some '+', eq := true, l := none } := by
    rw [hdata]
    simp only [runAction, hstep1]
    rw [runAction_addRun (sortChars f) { flags := [], mode := some '+', eq := true, l := none }
        hAll rfl,
      foldl_pyAdd_of_nodup (sortChars f) [] (by simpa using hnodup)]
    rfl
  have hrA : runActions [] [r] = .ok (sortChars f) := by
    simp only [runActions, hrunr]
  exact (merge_actions_ok_iff [r] r).mpr
    ⟨sortChars f, hrA, by rw [sortChars_of_pairwise (sortChars_pairwise f)]; exact hr⟩

/-- Witness for C10 at the action list `["+ep"]`. -/
theorem C10_witness : merge_actions ["=ep"] = Except.ok "=ep" :=
  C10_idempotent ["+ep"] "=ep" rfl

end Capabilities
